import Mathlib

/-!
# Verification of the `dflag` dynamic-flag library core

Shallow embedding of the parser registry and the dynamic value cell of
`fortio.org/dflag` (`dyngeneric.go` and companions), with theorems checking
the natural-language specification against the code.

Strings are modelled by Lean `String` / `List Char` (Go strings are UTF-8
byte strings; all inputs of interest here are ASCII where the two views
agree).  Machine integers are modelled by `Nat`/`Int` with explicit bounds.
Fallible operations return `Except String` (the error payload models Go's
`error`).
-/

namespace DFlag

/-! ## Go string primitives (`strings`, `unicode` packages) -/

/-- `unicode.IsSpace` restricted to Latin-1, which is what `strings.TrimSpace`
tests for ASCII input: space, \t, \n, \v, \f, \r, NEL (U+0085), NBSP (U+00A0). -/
def goIsSpace (c : Char) : Bool :=
  c = ' ' || c = '\t' || c = '\n' || c = '\x0b' || c = '\x0c' || c = '\r' ||
  c = '\u0085' || c = ' '

/-- `strings.TrimSpace` on a character list: drop leading and trailing
whitespace. -/
def trimSpaceL (l : List Char) : List Char :=
  ((l.dropWhile goIsSpace).reverse.dropWhile goIsSpace).reverse

/-- `strings.TrimSpace`. -/
def trimSpace (s : String) : String :=
  ⟨trimSpaceL s.data⟩

/-- `strings.Split(input, ",")` on a character list: cut at every comma.
`[]` maps to `[[]]` exactly as Go's `Split` maps `""` to `[""]`. -/
def splitCommaL : List Char → List (List Char)
  | [] => [[]]
  | c :: cs =>
    let rest := splitCommaL cs
    if c = ',' then [] :: rest
    else (c :: rest.head!) :: rest.tail!

/-- `strings.Split(input, ",")`. -/
def splitComma (s : String) : List String :=
  (splitCommaL s.data).map (fun l => ⟨l⟩)

/-- `strings.Join(elems, ",")` on character lists. -/
def joinCommaL (ls : List (List Char)) : List Char :=
  match ls with
  | [] => []
  | l :: ls' => l ++ (ls'.map (fun x => ',' :: x)).flatten

/-- `strings.Join(elems, ",")`. -/
def joinComma (ls : List String) : String :=
  ⟨joinCommaL (ls.map String.data)⟩

theorem splitCommaL_ne_nil (l : List Char) : splitCommaL l ≠ [] := by
  cases l with
  | nil => simp [splitCommaL]
  | cons c cs =>
    simp only [splitCommaL]
    split <;> simp

/-- `Join(Split(s, ","), ",") = s`: splitting loses nothing and keeps order. -/
theorem joinCommaL_splitCommaL (l : List Char) :
    joinCommaL (splitCommaL l) = l := by
  induction l with
  | nil => rfl
  | cons c cs ih =>
    simp only [splitCommaL]
    rcases h : splitCommaL cs with _ | ⟨hd, tl⟩
    · exact absurd h (splitCommaL_ne_nil cs)
    · rw [h] at ih
      by_cases hc : c = ','
      · subst hc
        simp only [if_pos rfl, joinCommaL, List.map_cons, List.flatten]
        simpa [joinCommaL] using ih
      · simp only [if_neg hc, List.head!, List.tail!]
        cases tl with
        | nil => simpa [joinCommaL] using congrArg (c :: ·) ih
        | cons t ts => simpa [joinCommaL] using congrArg (c :: ·) ih

/-! ## Byte-wise lexicographic string order (Go `string` comparison)

Go compares strings byte-wise; on the ASCII inputs of interest this is
codepoint order.  We use an executable boolean comparison so that concrete
instances evaluate by `decide`. -/

/-- Lexicographic `≤` on character lists by codepoint. -/
def lexLe : List Char → List Char → Bool
  | [], _ => true
  | _ :: _, [] => false
  | a :: as, b :: bs =>
    if a.toNat < b.toNat then true
    else if b.toNat < a.toNat then false
    else lexLe as bs

/-- Go string `<=` (byte-wise on ASCII). -/
def strLe (s t : String) : Bool := lexLe s.data t.data

/-- The ordering relation used to sort set elements. -/
def strLeRel (s t : String) : Prop := strLe s t = true

instance : DecidableRel strLeRel := fun s t => inferInstanceAs (Decidable (_ = true))

theorem lexLe_total (a b : List Char) : lexLe a b = true ∨ lexLe b a = true := by
  induction a generalizing b with
  | nil => left; rfl
  | cons x xs ih =>
    cases b with
    | nil => right; rfl
    | cons y ys =>
      simp only [lexLe]
      rcases Nat.lt_trichotomy x.toNat y.toNat with h | h | h
      · left; simp [h]
      · have hlt : ¬ x.toNat < y.toNat := by omega
        have hgt : ¬ y.toNat < x.toNat := by omega
        simpa [hlt, hgt] using ih ys
      · right; simp [h, Nat.lt_asymm h]

theorem char_toNat_inj {a b : Char} (h : a.toNat = b.toNat) : a = b := by
  rcases a with ⟨⟨av, hav⟩, ha⟩
  rcases b with ⟨⟨bv, hbv⟩, hb⟩
  simp only [Char.toNat, UInt32.toNat] at h
  simp_all

theorem lexLe_antisymm {a b : List Char} (hab : lexLe a b = true)
    (hba : lexLe b a = true) : a = b := by
  induction a generalizing b with
  | nil =>
    cases b with
    | nil => rfl
    | cons y ys => simp [lexLe] at hba
  | cons x xs ih =>
    cases b with
    | nil => simp [lexLe] at hab
    | cons y ys =>
      simp only [lexLe] at hab hba
      rcases Nat.lt_trichotomy x.toNat y.toNat with h | h | h
      · simp [h, Nat.lt_asymm h] at hba
      · have hlt : ¬ x.toNat < y.toNat := by omega
        have hgt : ¬ y.toNat < x.toNat := by omega
        simp only [hlt, hgt, if_false, if_neg, ite_false] at hab hba
        rw [char_toNat_inj h, ih (by simpa [hlt, hgt] using hab) (by simpa [hlt, hgt] using hba)]
      · simp [h, Nat.lt_asymm h] at hab

theorem lexLe_trans {a b c : List Char} (hab : lexLe a b = true)
    (hbc : lexLe b c = true) : lexLe a c = true := by
  induction a generalizing b c with
  | nil => rfl
  | cons x xs ih =>
    cases b with
    | nil => simp [lexLe] at hab
    | cons y ys =>
      cases c with
      | nil => simp [lexLe] at hbc
      | cons z zs =>
        simp only [lexLe] at hab hbc ⊢
        rcases Nat.lt_trichotomy x.toNat y.toNat with h1 | h1 | h1
        · rcases Nat.lt_trichotomy y.toNat z.toNat with h2 | h2 | h2
          · have hxz : x.toNat < z.toNat := by omega
            simp [hxz]
          · have hxz : x.toNat < z.toNat := by omega
            simp [hxz]
          · have hn : ¬ y.toNat < z.toNat := by omega
            simp [hn, h2] at hbc
        · rcases Nat.lt_trichotomy y.toNat z.toNat with h2 | h2 | h2
          · have hxz : x.toNat < z.toNat := by omega
            simp [hxz]
          · have h1lt : ¬ x.toNat < y.toNat := by omega
            have h1gt : ¬ y.toNat < x.toNat := by omega
            have h2lt : ¬ y.toNat < z.toNat := by omega
            have h2gt : ¬ z.toNat < y.toNat := by omega
            have hnlt : ¬ x.toNat < z.toNat := by omega
            have hngt : ¬ z.toNat < x.toNat := by omega
            simp only [h1lt, h1gt, ite_false, if_false, if_neg] at hab
            simp only [h2lt, h2gt, ite_false, if_false, if_neg] at hbc
            simp only [hnlt, hngt, ite_false, if_false, if_neg]
            exact ih (by simpa using hab) (by simpa using hbc)
          · have hn : ¬ y.toNat < z.toNat := by omega
            simp [hn, h2] at hbc
        · have hn : ¬ x.toNat < y.toNat := by omega
          simp [hn, h1] at hab

instance : IsTotal String strLeRel :=
  ⟨fun s t => lexLe_total s.data t.data⟩

instance : IsTrans String strLeRel :=
  ⟨fun _ _ _ hab hbc => lexLe_trans hab hbc⟩

instance : IsAntisymm String strLeRel :=
  ⟨fun s t hab hba => by
    have h := lexLe_antisymm hab hba
    cases s; cases t; exact congrArg String.mk h⟩

/-! ## `fortio.org/sets` (dependency of `dyngeneric.go`)

`sets.Set[string]` is `map[string]struct{}`.  A map is observed only through
membership and through `Set.String()`, which sorts the keys ascending and
joins them with `","`; we model the map by its key list (order immaterial
for every observation below). -/

/-- `sets.FromSlice`: insert every item into a fresh map; the key set is the
set of distinct items. -/
def setFromSlice (items : List String) : List String := items.dedup

/-- `sets.Set.String()`: keys sorted ascending, joined by `","`.  The key
list of a Go map is duplicate-free; every set below is built by
`setFromSlice`, which guarantees that invariant. -/
def setToString (keys : List String) : String :=
  joinComma (List.insertionSort strLeRel keys)

/-- Membership in the modelled set. -/
def setMem (x : String) (keys : List String) : Prop := x ∈ keys

/-! ## `strconv.ParseBool` -/

/-- `strconv.ParseBool`: the exact literal switch from the Go source. -/
def goParseBool (str : String) : Except String Bool :=
  if str = "1" || str = "t" || str = "T" || str = "true" || str = "TRUE" || str = "True" then
    .ok true
  else if str = "0" || str = "f" || str = "F" || str = "false" || str = "FALSE" || str = "False" then
    .ok false
  else .error "invalid syntax"

/-! ## `encoding/base64` `StdEncoding`

Bytes are `Nat`s below 256.  `EncodeToString` emits 4 alphabet characters
per 3 bytes with `=` padding.  `DecodeString` skips `\r` and `\n` anywhere,
requires the remaining length to be a multiple of 4, allows `=` padding only
in the final quantum, and (being the non-strict encoding) does not check the
unused trailing bits. -/

/-- The standard base64 alphabet, index to character. -/
def b64Char (i : Nat) : Char :=
  "ABCDEFGHIJKLMNOPQRSTUVWXYZabcdefghijklmnopqrstuvwxyz0123456789+/".data.getD i '?'

/-- Inverse alphabet lookup (the decode map built in `encoding/base64`). -/
def b64Val (c : Char) : Option Nat :=
  let n := c.toNat
  if 65 ≤ n ∧ n ≤ 90 then some (n - 65)
  else if 97 ≤ n ∧ n ≤ 122 then some (n - 97 + 26)
  else if 48 ≤ n ∧ n ≤ 57 then some (n - 48 + 52)
  else if n = 43 then some 62
  else if n = 47 then some 63
  else none

/-- `base64.StdEncoding.EncodeToString`, 3 bytes to 4 characters. -/
def b64EncodeL : List Nat → List Char
  | [] => []
  | [b1] => [b64Char (b1 / 4), b64Char (b1 % 4 * 16), '=', '=']
  | [b1, b2] => [b64Char (b1 / 4), b64Char (b1 % 4 * 16 + b2 / 16), b64Char (b2 % 16 * 4), '=']
  | b1 :: b2 :: b3 :: rest =>
    b64Char (b1 / 4) :: b64Char (b1 % 4 * 16 + b2 / 16) ::
      b64Char (b2 % 16 * 4 + b3 / 64) :: b64Char (b3 % 64) :: b64EncodeL rest

/-- `base64.StdEncoding.EncodeToString`. -/
def b64EncodeString (bs : List Nat) : String := ⟨b64EncodeL bs⟩

/-- One pass of `StdEncoding` decoding over newline-free input, 4 characters
per quantum; `=` is legal only as final-quantum padding. -/
def b64DecodeQuads : List Char → Except String (List Nat)
  | [] => .ok []
  | a :: b :: c :: d :: rest =>
    match b64Val a, b64Val b with
    | some va, some vb =>
      if c = '=' then
        if d = '=' ∧ rest = [] then .ok [va * 4 + vb / 16]
        else .error "illegal base64 data"
      else
        match b64Val c with
        | some vc =>
          if d = '=' then
            if rest = [] then .ok [va * 4 + vb / 16, vb % 16 * 16 + vc / 4]
            else .error "illegal base64 data"
          else
            match b64Val d with
            | some vd =>
              match b64DecodeQuads rest with
              | .ok tail => .ok ((va * 4 + vb / 16) :: (vb % 16 * 16 + vc / 4) :: (vc % 4 * 64 + vd) :: tail)
              | .error e => .error e
            | none => .error "illegal base64 data"
        | none => .error "illegal base64 data"
    | _, _ => .error "illegal base64 data"
  | _ => .error "illegal base64 data"
termination_by structural l => l

/-- The decoder skips carriage returns and newlines anywhere in its input. -/
def dropNewlines (l : List Char) : List Char :=
  l.filter (fun c => !(c = '\r' || c = '\n'))

/-- `base64.StdEncoding.DecodeString`. -/
def b64DecodeString (s : String) : Except String (List Nat) :=
  b64DecodeQuads (dropNewlines s.data)

theorem b64Val_b64Char : ∀ i : Fin 64, b64Val (b64Char i.val) = some i.val := by
  decide

/-- Bytes below 256 are what `[]byte` holds. -/
def isByteList (bs : List Nat) : Prop := ∀ b ∈ bs, b < 256

instance (bs : List Nat) : Decidable (isByteList bs) :=
  inferInstanceAs (Decidable (∀ b ∈ bs, b < 256))

theorem b64Char_not_newline (i : Nat) (h : i < 64) :
    ¬ (b64Char i = '\r' ∨ b64Char i = '\n') := by
  have key : ∀ j : Fin 64, decide (b64Char j.val = '\r') = false ∧
      decide (b64Char j.val = '\n') = false := by decide
  intro hc
  rcases hc with hc | hc
  · have := (key ⟨i, h⟩).1
    simp [hc] at this
  · have := (key ⟨i, h⟩).2
    simp [hc] at this

theorem b64Char_ne_eq (i : Nat) (h : i < 64) : ¬ b64Char i = '=' := by
  have key : ∀ j : Fin 64, decide (b64Char j.val = '=') = false := by decide
  intro hc
  have := key ⟨i, h⟩
  simp [hc] at this

theorem b64EncodeL_no_newline : ∀ (bs : List Nat), isByteList bs →
    ∀ c ∈ b64EncodeL bs, ¬ (c = '\r' ∨ c = '\n')
  | [], _, c, hc => by cases hc
  | [b1], h, c, hc => by
    have hb1 : b1 < 256 := h b1 (by simp)
    simp only [b64EncodeL, List.mem_cons, List.not_mem_nil, or_false] at hc
    rcases hc with rfl | rfl | rfl | rfl
    · exact b64Char_not_newline _ (by omega)
    · exact b64Char_not_newline _ (by omega)
    · rintro (hor | hor) <;> simp at hor
    · rintro (hor | hor) <;> simp at hor
  | [b1, b2], h, c, hc => by
    have hb1 : b1 < 256 := h b1 (by simp)
    have hb2 : b2 < 256 := h b2 (by simp)
    simp only [b64EncodeL, List.mem_cons, List.not_mem_nil, or_false] at hc
    rcases hc with rfl | rfl | rfl | rfl
    · exact b64Char_not_newline _ (by omega)
    · exact b64Char_not_newline _ (by omega)
    · exact b64Char_not_newline _ (by omega)
    · rintro (hor | hor) <;> simp at hor
  | b1 :: b2 :: b3 :: rest, h, c, hc => by
    have hb1 : b1 < 256 := h b1 (by simp)
    have hb2 : b2 < 256 := h b2 (by simp)
    have hb3 : b3 < 256 := h b3 (by simp)
    have hrest : isByteList rest := fun b hb => h b (by simp [hb])
    rcases hc with _ | ⟨_, _ | ⟨_, _ | ⟨_, _ | ⟨_, htail⟩⟩⟩⟩
    · exact b64Char_not_newline _ (by omega)
    · exact b64Char_not_newline _ (by omega)
    · exact b64Char_not_newline _ (by omega)
    · exact b64Char_not_newline _ (by omega)
    · exact b64EncodeL_no_newline rest hrest c htail

/-- Encoded output never contains `\r` or `\n`, so the decode pre-filter is
the identity on it. -/
theorem dropNewlines_b64EncodeL (bs : List Nat) (h : isByteList bs) :
    dropNewlines (b64EncodeL bs) = b64EncodeL bs := by
  simp only [dropNewlines, List.filter_eq_self]
  intro c hc
  have hcc := b64EncodeL_no_newline bs h c hc
  simp only [Bool.not_eq_true', Bool.or_eq_false_iff, decide_eq_false_iff_not]
  exact ⟨fun h1 => hcc (Or.inl h1), fun h2 => hcc (Or.inr h2)⟩

/-- Decoding inverts encoding quantum by quantum. -/
theorem b64DecodeQuads_b64EncodeL : ∀ (bs : List Nat), isByteList bs →
    b64DecodeQuads (b64EncodeL bs) = .ok bs
  | [], _ => rfl
  | [b1], h => by
    have hb1 : b1 < 256 := h b1 (by simp)
    have h1 : b1 / 4 < 64 := by omega
    have h2 : b1 % 4 * 16 < 64 := by omega
    simp only [b64EncodeL, b64DecodeQuads,
      b64Val_b64Char ⟨b1 / 4, h1⟩, b64Val_b64Char ⟨b1 % 4 * 16, h2⟩]
    simp only [if_pos rfl, and_self, if_true, ite_true]
    have e1 : b1 / 4 * 4 + b1 % 4 * 16 / 16 = b1 := by omega
    rw [e1]
  | [b1, b2], h => by
    have hb1 : b1 < 256 := h b1 (by simp)
    have hb2 : b2 < 256 := h b2 (by simp)
    have h1 : b1 / 4 < 64 := by omega
    have h2 : b1 % 4 * 16 + b2 / 16 < 64 := by omega
    have h3 : b2 % 16 * 4 < 64 := by omega
    simp only [b64EncodeL, b64DecodeQuads,
      b64Val_b64Char ⟨b1 / 4, h1⟩, b64Val_b64Char ⟨b1 % 4 * 16 + b2 / 16, h2⟩,
      b64Val_b64Char ⟨b2 % 16 * 4, h3⟩]
    simp only [if_true, ite_true, if_neg (b64Char_ne_eq _ h3)]
    have e1 : b1 / 4 * 4 + (b1 % 4 * 16 + b2 / 16) / 16 = b1 := by omega
    have e2 : (b1 % 4 * 16 + b2 / 16) % 16 * 16 + b2 % 16 * 4 / 4 = b2 := by omega
    rw [e1, e2]
  | b1 :: b2 :: b3 :: rest, h => by
    have hb1 : b1 < 256 := h b1 (by simp)
    have hb2 : b2 < 256 := h b2 (by simp)
    have hb3 : b3 < 256 := h b3 (by simp)
    have h1 : b1 / 4 < 64 := by omega
    have h2 : b1 % 4 * 16 + b2 / 16 < 64 := by omega
    have h3 : b2 % 16 * 4 + b3 / 64 < 64 := by omega
    have h4 : b3 % 64 < 64 := by omega
    have hrest : isByteList rest := fun b hb => h b (by simp [hb])
    have ih := b64DecodeQuads_b64EncodeL rest hrest
    match rest, ih with
    | rest, ih =>
      simp only [b64EncodeL]
      show b64DecodeQuads (b64Char (b1 / 4) :: b64Char (b1 % 4 * 16 + b2 / 16) ::
        b64Char (b2 % 16 * 4 + b3 / 64) :: b64Char (b3 % 64) :: b64EncodeL rest) = _
      simp only [b64DecodeQuads,
        b64Val_b64Char ⟨b1 / 4, h1⟩, b64Val_b64Char ⟨b1 % 4 * 16 + b2 / 16, h2⟩,
        b64Val_b64Char ⟨b2 % 16 * 4 + b3 / 64, h3⟩, b64Val_b64Char ⟨b3 % 64, h4⟩]
      rw [if_neg (b64Char_ne_eq _ h3), if_neg (b64Char_ne_eq _ h4), ih]
      have e1 : b1 / 4 * 4 + (b1 % 4 * 16 + b2 / 16) / 16 = b1 := by omega
      have e2 : (b1 % 4 * 16 + b2 / 16) % 16 * 16 + (b2 % 16 * 4 + b3 / 64) / 4 = b2 := by omega
      have e3 : (b2 % 16 * 4 + b3 / 64) % 4 * 64 + b3 % 64 = b3 := by omega
      rw [e1, e2, e3]

/-- `DecodeString(EncodeToString(bs)) = bs`. -/
theorem b64_roundtrip (bs : List Nat) (h : isByteList bs) :
    b64DecodeString (b64EncodeString bs) = .ok bs := by
  show b64DecodeQuads (dropNewlines (b64EncodeL bs)) = .ok bs
  rw [dropNewlines_b64EncodeL bs h, b64DecodeQuads_b64EncodeL bs h]

/-! ## `strconv.ParseInt(s, 0, 64)`

Faithful model of Go's `ParseUint`/`ParseInt` with base 0: optional sign,
`0b`/`0o`/`0x` prefixes, a bare leading `0` meaning octal, underscores
allowed between digits (checked by `underscoreOK`), and 64-bit range
errors. -/

/-- `lower(c)`: Go's byte-wise ASCII lowercasing `c | ('x' - 'X')`. -/
def lowerNat (n : Nat) : Nat := n ||| 32

/-- Digit value of a character as in the `ParseUint` loop: `0`-`9`, then
letters via `lower`. -/
def digitVal (c : Char) : Option Nat :=
  let t := c.toNat
  if 48 ≤ t ∧ t ≤ 57 then some (t - 48)
  else if 97 ≤ lowerNat t ∧ lowerNat t ≤ 122 then some (lowerNat t - 97 + 10)
  else none

/-- `1<<64 - 1`, the `maxVal` of `ParseUint` for `bitSize` 64. -/
def maxU64 : Nat := 2 ^ 64 - 1

/-- `maxVal/base + 1`, the overflow cutoff of `ParseUint`. -/
def u64Cutoff (base : Nat) : Nat := maxU64 / base + 1

/-- The accumulation loop of `ParseUint`: underscores are skipped (recorded)
when the caller used base 0; a digit at or above the base, or growth past
`maxVal`, is an error.  Returns the value and whether underscores were
seen. -/
def parseUintLoop (base : Nat) (base0 : Bool) :
    List Char → Nat → Bool → Except String (Nat × Bool)
  | [], n, u => .ok (n, u)
  | c :: cs, n, u =>
    if c = '_' ∧ base0 then parseUintLoop base base0 cs n true
    else
      match digitVal c with
      | none => .error "invalid syntax"
      | some d =>
        if base ≤ d then .error "invalid syntax"
        else if u64Cutoff base ≤ n then .error "value out of range"
        else if maxU64 < n * base + d then .error "value out of range"
        else parseUintLoop base base0 cs (n * base + d) u

/-- `strconv.underscoreOK`: underscores may only be between digits or
between a base prefix and a digit.  `saw` is the category of the previous
character: `0` digit (or base prefix), `_` underscore, `!` anything else,
`^` start of string. -/
def underscoreOKLoop (hex : Bool) : List Char → Char → Bool
  | [], saw => saw ≠ '_'
  | c :: cs, saw =>
    let t := c.toNat
    if (48 ≤ t ∧ t ≤ 57) ∨ (hex ∧ 97 ≤ lowerNat t ∧ lowerNat t ≤ 102) then
      underscoreOKLoop hex cs '0'
    else if c = '_' then
      if saw ≠ '0' then false else underscoreOKLoop hex cs '_'
    else if saw = '_' then false
    else underscoreOKLoop hex cs '!'

/-- `strconv.underscoreOK` on a full numeric literal. -/
def underscoreOK (s : List Char) : Bool :=
  let s1 := match s with
    | c :: rest => if c = '-' ∨ c = '+' then rest else s
    | [] => s
  match s1 with
  | '0' :: c2 :: rest =>
    let l := lowerNat c2.toNat
    if l = 98 ∨ l = 111 ∨ l = 120 then underscoreOKLoop (l = 120) rest '0'
    else underscoreOKLoop false s1 '^'
  | _ => underscoreOKLoop false s1 '^'

/-- `strconv.ParseUint(s, 0, 64)`: empty is an error; base and prefix are
taken from the literal; after the loop, underscore placement is checked
against the original string. -/
def goParseUint64 (s0 : List Char) : Except String Nat :=
  match s0 with
  | [] => .error "invalid syntax"
  | c :: rest =>
    let bs : Nat × List Char :=
      if c = '0' then
        match rest with
        | [] => (8, [])
        | c2 :: rest2 =>
          let l := lowerNat c2.toNat
          if l = 98 ∧ rest2 ≠ [] then (2, rest2)
          else if l = 111 ∧ rest2 ≠ [] then (8, rest2)
          else if l = 120 ∧ rest2 ≠ [] then (16, rest2)
          else (8, rest)
      else (10, c :: rest)
    match parseUintLoop bs.1 true bs.2 0 false with
    | .error e => .error e
    | .ok (n, sawU) =>
      if sawU ∧ ¬ underscoreOK s0 then .error "invalid syntax" else .ok n

/-- `strconv.ParseInt(s, 0, 64)`: strip the sign, parse the magnitude, and
check the signed 64-bit range. -/
def goParseInt64 (s : String) : Except String Int :=
  match s.data with
  | [] => .error "invalid syntax"
  | c :: rest =>
    let neg : Bool := c = '-'
    let digits := if c = '+' ∨ c = '-' then rest else c :: rest
    match goParseUint64 digits with
    | .error e => .error e
    | .ok un =>
      if ¬ neg ∧ 2 ^ 63 ≤ un then .error "value out of range"
      else if neg ∧ 2 ^ 63 < un then .error "value out of range"
      else .ok (if neg then -(un : Int) else (un : Int))

/-! ## Decimal formatting (`strconv.FormatInt(v, 10)`, the `%v` verb) -/

/-- Little-endian decimal digits, with the number itself as structural
fuel (`n / 10 < n` keeps the fuel sufficient). -/
def digitsLE : Nat → Nat → List Nat
  | _, 0 => []
  | 0, _ + 1 => []
  | fuel + 1, n + 1 => (n + 1) % 10 :: digitsLE fuel ((n + 1) / 10)

/-- A decimal digit character. -/
def digitChar (d : Nat) : Char := Char.ofNat (48 + d)

/-- Decimal character run of a natural number, most significant first. -/
def natDecChars (n : Nat) : List Char :=
  if n = 0 then ['0'] else ((digitsLE n n).reverse).map digitChar

/-- `strconv.FormatInt(v, 10)` / `fmt.Sprintf("%v", v)` for `int64`. -/
def formatInt (i : Int) : String :=
  if i < 0 then ⟨'-' :: natDecChars i.natAbs⟩ else ⟨natDecChars i.toNat⟩

/-- Value of little-endian digits. -/
def ofDigitsLE (ds : List Nat) : Nat := ds.foldr (fun d r => d + 10 * r) 0

theorem digitsLE_spec : ∀ (fuel n : Nat), n ≤ fuel →
    ofDigitsLE (digitsLE fuel n) = n ∧ (∀ d ∈ digitsLE fuel n, d < 10)
  | fuel, 0, _ => by cases fuel <;> simp [digitsLE, ofDigitsLE]
  | 0, n + 1, h => by omega
  | fuel + 1, n + 1, h => by
    have hdiv : (n + 1) / 10 ≤ fuel := by
      have := Nat.div_le_self (n + 1) 10
      have h2 : (n + 1) / 10 < n + 1 := Nat.div_lt_self (by omega) (by omega)
      omega
    have ih := digitsLE_spec fuel ((n + 1) / 10) hdiv
    constructor
    · simp only [digitsLE, ofDigitsLE, List.foldr_cons]
      have : ofDigitsLE (digitsLE fuel ((n + 1) / 10)) = (n + 1) / 10 := ih.1
      simp only [ofDigitsLE] at this
      rw [this]
      omega
    · intro d hd
      simp only [digitsLE, List.mem_cons] at hd
      rcases hd with rfl | hd
      · exact Nat.mod_lt _ (by omega)
      · exact ih.2 d hd

theorem digitsLE_ne_nil (fuel n : Nat) (hn : n ≠ 0) (h : n ≤ fuel) :
    digitsLE fuel n ≠ [] := by
  cases fuel with
  | zero => omega
  | succ f =>
    cases n with
    | zero => omega
    | succ m => simp [digitsLE]

theorem digitsLE_getLast_ne_zero : ∀ (fuel n : Nat) (hn : n ≠ 0) (h : n ≤ fuel)
    (hne : digitsLE fuel n ≠ []), (digitsLE fuel n).getLast hne ≠ 0
  | 0, n, hn, h, _ => by omega
  | fuel + 1, 0, hn, _, _ => by omega
  | fuel + 1, n + 1, _, h, hne => by
    by_cases hq : (n + 1) / 10 = 0
    · have hlt : n + 1 < 10 := by omega
      have hmod : (n + 1) % 10 = n + 1 := Nat.mod_eq_of_lt hlt
      simp only [digitsLE, hq]
      cases fuel <;> simp [digitsLE, hmod]
    · have hdiv : (n + 1) / 10 ≤ fuel := by
        have h2 : (n + 1) / 10 < n + 1 := Nat.div_lt_self (by omega) (by omega)
        omega
      have hne2 : digitsLE fuel ((n + 1) / 10) ≠ [] := digitsLE_ne_nil fuel _ hq hdiv
      have ih := digitsLE_getLast_ne_zero fuel ((n + 1) / 10) hq hdiv hne2
      simp only [digitsLE]
      rw [List.getLast_cons hne2]
      exact ih

theorem digitChar_spec (d : Nat) (hd : d < 10) :
    digitVal (digitChar d) = some d ∧ digitChar d ≠ '_' ∧ digitChar d ≠ '+' ∧
      digitChar d ≠ '-' ∧ (d ≠ 0 → digitChar d ≠ '0') := by
  interval_cases d <;> refine ⟨rfl, by decide, by decide, by decide, by decide⟩

/-- One decimal accumulation step. -/
def decStep (a d : Nat) : Nat := a * 10 + d

theorem decStep_foldl_le (ds : List Nat) (acc : Nat) :
    acc ≤ List.foldl decStep acc ds := by
  induction ds generalizing acc with
  | nil => simp
  | cons d tl ih =>
    simp only [List.foldl_cons]
    have h1 : acc ≤ decStep acc d := by simp only [decStep]; omega
    exact le_trans h1 (ih (decStep acc d))

theorem parseUintLoop_digits (ds : List Nat) (acc : Nat)
    (hds : ∀ d ∈ ds, d < 10) (hbound : List.foldl decStep acc ds ≤ 2 ^ 63) :
    parseUintLoop 10 true (ds.map digitChar) acc false =
      .ok (List.foldl decStep acc ds, false) := by
  induction ds generalizing acc with
  | nil => simp [parseUintLoop]
  | cons d tl ih =>
    have hd : d < 10 := hds d (by simp)
    have hspec := digitChar_spec d hd
    simp only [List.foldl_cons] at hbound
    have hstep : decStep acc d ≤ List.foldl decStep (decStep acc d) tl :=
      decStep_foldl_le tl _
    have hmax : maxU64 = 18446744073709551615 := by norm_num [maxU64]
    have hcut : u64Cutoff 10 = 1844674407370955162 := by norm_num [u64Cutoff, hmax]
    have hpow : (2 : Nat) ^ 63 = 9223372036854775808 := by norm_num
    have hs2 : acc * 10 + d ≤ 9223372036854775808 := by
      simp only [decStep] at hstep hbound
      omega
    simp only [List.map_cons, parseUintLoop]
    rw [if_neg (by simp [hspec.2.1])]
    simp only [hspec.1, hcut, hmax]
    rw [if_neg (by omega)]
    rw [if_neg (by omega)]
    rw [if_neg (by omega)]
    have hrec := ih (acc * 10 + d) (fun x hx => hds x (by simp [hx]))
      (by simpa [decStep] using hbound)
    simpa [decStep] using hrec

theorem natDecChars_ne_nil (n : Nat) : natDecChars n ≠ [] := by
  by_cases hn : n = 0
  · simp [natDecChars, hn]
  · simp only [natDecChars, if_neg hn, ne_eq, List.map_eq_nil_iff,
      List.reverse_eq_nil_iff]
    exact digitsLE_ne_nil n n hn le_rfl

theorem foldl_decStep_reverse (ds : List Nat) :
    List.foldl decStep 0 ds.reverse = ofDigitsLE ds := by
  rw [List.foldl_reverse]
  simp only [ofDigitsLE, decStep]
  induction ds with
  | nil => rfl
  | cons d tl ih => simp only [List.foldr_cons, ih]; omega

/-- Parsing the decimal form of `n ≤ 2^63` recovers `n`. -/
theorem goParseUint64_natDecChars (n : Nat) (h : n ≤ 2 ^ 63) :
    goParseUint64 (natDecChars n) = .ok n := by
  by_cases hn : n = 0
  · subst hn; rfl
  · have hspec := digitsLE_spec n n le_rfl
    have hne : digitsLE n n ≠ [] := digitsLE_ne_nil n n hn le_rfl
    have hlast := digitsLE_getLast_ne_zero n n hn le_rfl hne
    -- the character list is the reversed digit run
    have hform : natDecChars n = ((digitsLE n n).reverse).map digitChar := by
      simp [natDecChars, hn]
    -- leading digit of the output: the last digit of the little-endian run
    obtain ⟨D, ds, hrev⟩ : ∃ D ds, (digitsLE n n).reverse = D :: ds := by
      rcases hr : (digitsLE n n).reverse with _ | ⟨D, ds⟩
      · exact absurd (by simpa using congrArg List.reverse hr) hne
      · exact ⟨D, ds, rfl⟩
    have hDmem : D ∈ digitsLE n n := by
      have : D ∈ (digitsLE n n).reverse := by simp [hrev]
      simpa using this
    have hD10 : D < 10 := hspec.2 D hDmem
    have hlist : digitsLE n n = ds.reverse ++ [D] := by
      have h2 := congrArg List.reverse hrev
      simpa using h2
    have hD0 : D ≠ 0 := by
      have hgl : (digitsLE n n).getLast hne = D := by
        have h3 : ∀ (l : List Nat) (hl : l ≠ []) (hl2 : l = ds.reverse ++ [D]),
            l.getLast hl = D := by
          intro l hl hl2
          subst hl2
          exact List.getLast_concat _
        exact h3 _ hne hlist
      intro hc; exact hlast (by rw [hgl, hc])
    have hloop := parseUintLoop_digits ((digitsLE n n).reverse) 0
      (fun d hd => hspec.2 d (by simpa using hd))
      (by rw [foldl_decStep_reverse, hspec.1]; exact h)
    rw [foldl_decStep_reverse, hspec.1] at hloop
    have hchar := digitChar_spec D hD10
    rw [hform, hrev]
    simp only [List.map_cons, goParseUint64]
    rw [if_neg (hchar.2.2.2.2 hD0)]
    have hloop2 : parseUintLoop 10 true (digitChar D :: ds.map digitChar) 0 false =
        .ok (n, false) := by
      have : (D :: ds).map digitChar = digitChar D :: ds.map digitChar := rfl
      rw [← this, ← hrev] ; exact hloop
    rw [hloop2]
    simp

/-- Round-trip for `int64`: parsing the canonical decimal form of any
signed 64-bit value recovers it. -/
theorem goParseInt64_formatInt (i : Int) (h1 : -(2 ^ 63) ≤ i) (h2 : i < 2 ^ 63) :
    goParseInt64 (formatInt i) = .ok i := by
  by_cases hneg : i < 0
  · have hform : (formatInt i).data = '-' :: natDecChars i.natAbs := by
      simp [formatInt, hneg]
    have habs : i.natAbs ≤ 2 ^ 63 := by omega
    simp only [goParseInt64, hform]
    rw [if_pos (Or.inr trivial)]
    rw [goParseUint64_natDecChars i.natAbs habs]
    have hnabs : ¬ 2 ^ 63 < i.natAbs := by omega
    have hcast : ((i.natAbs : Nat) : Int) = -i := by omega
    simp [hnabs, hcast]
    omega
  · push_neg at hneg
    have hform : (formatInt i).data = natDecChars i.toNat := by
      simp [formatInt, not_lt.mpr hneg]
    have htn : i.toNat < 2 ^ 63 := by omega
    obtain ⟨c, rest, hcr⟩ : ∃ c rest, natDecChars i.toNat = c :: rest := by
      rcases hh : natDecChars i.toNat with _ | ⟨c, rest⟩
      · exact absurd hh (natDecChars_ne_nil _)
      · exact ⟨c, rest, rfl⟩
    have hcchar : c ≠ '+' ∧ c ≠ '-' := by
      by_cases hz : i.toNat = 0
      · rw [hz] at hcr
        simp only [natDecChars, if_pos rfl] at hcr
        cases hcr
        exact ⟨by decide, by decide⟩
      · simp only [natDecChars, if_neg hz] at hcr
        rcases hm : (digitsLE i.toNat i.toNat).reverse with _ | ⟨D, ds⟩
        · rw [hm] at hcr; cases hcr
        · rw [hm] at hcr
          simp only [List.map_cons] at hcr
          have hD : D < 10 := by
            have hspec := digitsLE_spec i.toNat i.toNat le_rfl
            refine hspec.2 D ?_
            have : D ∈ (digitsLE i.toNat i.toNat).reverse := by simp [hm]
            simpa using this
          have := digitChar_spec D hD
          cases hcr
          exact ⟨this.2.2.1, this.2.2.2.1⟩
    simp only [goParseInt64, hform, hcr]
    rw [if_neg (by rintro (hc | hc) <;> [exact hcchar.1 hc; exact hcchar.2 hc])]
    rw [← hcr, goParseUint64_natDecChars i.toNat (le_of_lt htn)]
    have hcneg : ¬ (c = '-') := hcchar.2
    have hnabs : ¬ 2 ^ 63 ≤ i.toNat := by omega
    have hcast : ((i.toNat : Nat) : Int) = i := by omega
    simp [hcneg, hnabs, hcast]
    omega

/-! ## Extended durations (`fortio.org/duration`)

The released `dyngeneric.go` routes the duration arms of `parse` and
`String()` through `fortio.org/duration` (see `dynduration_test.go`, which
exercises `"1d3h"`, `"3w2d4h"` and their string forms); that file is not
part of the sources here, so the two functions below are modelled from the
spec. -/

/-- Nanoseconds per unit; `w` is 7 days, `d` is 24 hours. -/
def nsNs : Nat := 1
def nsUs : Nat := 1000
def nsMs : Nat := 1000000
def nsSec : Nat := 1000000000
def nsMin : Nat := 60 * nsSec
def nsHour : Nat := 60 * nsMin
def nsDay : Nat := 24 * nsHour
def nsWeek : Nat := 7 * nsDay

/-- Leading decimal run, accumulating onto `acc`; returns the value and the
unconsumed suffix. -/
def digitsAcc : List Char → Nat → (Nat × List Char)
  | [], acc => (acc, [])
  | c :: cs, acc =>
    if 48 ≤ c.toNat ∧ c.toNat ≤ 57 then digitsAcc cs (acc * 10 + (c.toNat - 48))
    else (acc, c :: cs)

/-- A unit suffix in nanoseconds; two-letter units are matched first. -/
def durUnit : List Char → Option (Nat × List Char)
  | [] => none
  | c :: r =>
    if c = 'w' then some (nsWeek, r)
    else if c = 'd' then some (nsDay, r)
    else if c = 'h' then some (nsHour, r)
    else if c = 'm' then
      match r with
      | c2 :: r2 => if c2 = 's' then some (nsMs, r2) else some (nsMin, c2 :: r2)
      | [] => some (nsMin, [])
    else if c = 's' then some (nsSec, r)
    else if c = 'u' then
      match r with
      | c2 :: r2 => if c2 = 's' then some (nsUs, r2) else none
      | [] => none
    else if c = 'n' then
      match r with
      | c2 :: r2 => if c2 = 's' then some (nsNs, r2) else none
      | [] => none
    else none

/-- Modelled from the spec: the extended duration grammar of
`fortio.org/duration.Parse` — a concatenation of `<num><unit>` groups where
the units compose (`"3w2d4h" ≡ 3·week + 2·day + 4·hour`); the fuel is the
input length, and every group consumes at least one character. -/
def durParseGroups : Nat → List Char → Nat → Except String Nat
  | _, [], acc => .ok acc
  | 0, _ :: _, _ => .error "invalid duration"
  | fuel + 1, c :: cs, acc =>
    if 48 ≤ c.toNat ∧ c.toNat ≤ 57 then
      let vr := digitsAcc cs (c.toNat - 48)
      match durUnit vr.2 with
      | some ur => durParseGroups fuel ur.2 (acc + vr.1 * ur.1)
      | none => .error "invalid duration"
    else .error "invalid duration"

/-- Modelled from the spec: `fortio.org/duration.Parse`, lenient and
whitespace-trimmed, value in nanoseconds. -/
def durParse (s : String) : Except String Nat :=
  match trimSpaceL s.data with
  | [] => .error "invalid duration"
  | l => durParseGroups (l.length + 1) l 0

/-- The unit table of the duration formatter, largest first, with its
lowercase suffix tags. -/
def unitTags : List (Nat × List Char) :=
  [(nsWeek, ['w']), (nsDay, ['d']), (nsHour, ['h']), (nsMin, ['m']),
    (nsSec, ['s']), (nsMs, ['m', 's']), (nsUs, ['u', 's']), (nsNs, ['n', 's'])]

/-- One formatting step: emit `<quotient><tag>` unless the component is
zero, and keep the remainder. -/
def durFormatStep (st : List Char × Nat) (u : Nat × List Char) : List Char × Nat :=
  let q := st.2 / u.1
  if q = 0 then st else (st.1 ++ natDecChars q ++ u.2, st.2 % u.1)

/-- Modelled from the spec: the duration string form — largest units first
(`w`, `d`, `h`, `m`, `s`, `ms`, `us`, `ns`), zero components omitted, so
weeks and days are preserved on output where the value is expressible. -/
def durFormat (n : Nat) : String :=
  if n = 0 then "0s"
  else ⟨(unitTags.foldl durFormatStep ([], n)).1⟩

/-! ## The `parse[T]` dispatcher of `dyngeneric.go`

The type parameter of the Go generic is modelled by a type code carrying
the `%T` name for types outside the switch; the value by a sum.  The
duration arm routes through the extended `fortio.org/duration` grammar
above, the version the in-tree duration tests pin down (the snapshot's
`time.ParseDuration` is the stale arm).  The `float64` arm
(`strconv.ParseFloat` / shortest-round-trip `%v`) is floating point, which
a shallow embedding over `Nat`/`Int` cannot represent, so that one code is
not included and no theorem speaks about it. -/

inductive GoVal where
  | vBool (b : Bool)
  | vInt (i : Int)
  | vDuration (ns : Nat)
  | vStr (s : String)
  | vSlice (l : List String)
  | vSet (keys : List String)
  | vBytes (bs : List Nat)
deriving DecidableEq

inductive GoType where
  | tBool
  | tInt64
  | tDuration
  | tStr
  | tSlice
  | tSet
  | tBytes
  | tOther (name : String)
deriving DecidableEq

/-- `CommaStringToSlice`: `strings.Split(input, ",")`. -/
def CommaStringToSlice (input : String) : List String := splitComma input

/-- `parse[T]` from `dyngeneric.go`: the type switch over the supported
types, with the default arm producing `unexpected type %T`. -/
def parse : GoType → String → Except String GoVal
  | .tBool, input => (goParseBool input).map .vBool
  | .tInt64, input => (goParseInt64 (trimSpace input)).map .vInt
  | .tDuration, input => (durParse input).map .vDuration
  | .tBytes, input => (b64DecodeString input).map .vBytes
  | .tStr, input => .ok (.vStr input)
  | .tSlice, input => .ok (.vSlice (CommaStringToSlice input))
  | .tSet, input => .ok (.vSet (setFromSlice (CommaStringToSlice input)))
  | .tOther name, _ => .error ("unexpected type " ++ name)

/-- `DynValue.String()`: the canonical string form of a value — explicit
arms for `[]string` (join) and `[]byte` (base64); `%v` for the rest, which
for `sets.Set[string]` is its sorted `String()`. -/
def format : GoVal → String
  | .vSlice l => joinComma l
  | .vBytes bs => b64EncodeString bs
  | .vBool b => if b then "true" else "false"
  | .vInt i => formatInt i
  | .vDuration ns => durFormat ns
  | .vStr s => s
  | .vSet keys => setToString keys

/-! ## The dynamic value cell (`DynValue[T]`)

`atomic.Value` is modelled by `Option T` (`none` = never stored; a type
assertion on it faults).  The notifier slot holds an opaque tag of type `N`
identifying the callback; `Set`/`SetV` report which tags were invoked,
synchronously or on a fresh goroutine, and with which `(old, new)` pair.
The host `flag.FlagSet` back-reference is out of scope. -/

structure DynValue (T : Type) (N : Type) where
  av : Option T := none
  flagName : String := ""
  ready : Bool := false
  syncNotifier : Bool := false
  validator : Option (T → Option String) := none
  notifier : Option N := none
  mutator : Option (T → T) := none
  inpMutator : Option (String → String) := none
  usage : String := ""

/-- `dynInit`: store the default, install `strings.TrimSpace` as the input
mutator, record the usage and mark ready. -/
def dynInit {T N : Type} (d : DynValue T N) (value : T) (usage : String) :
    DynValue T N :=
  { d with av := some value, inpMutator := some trimSpace, usage := usage, ready := true }

/-- `New`: a fresh cell initialized from the zero `DynValue` struct. -/
def New {T N : Type} (value : T) (usage : String) : DynValue T N :=
  dynInit {} value usage

/-- `Get`: the zero value of T when the cell is not ready (never faults
there); otherwise the stored value — `none` models the type-assertion
panic on an empty `atomic.Value`, which readiness rules out. -/
def DynValue.Get {T N : Type} (d : DynValue T N) (zero : T) : Option T :=
  if d.ready = false then some zero else d.av

/-- The value mutator step of `SetV`. -/
def DynValue.applyMutator {T N : Type} (d : DynValue T N) (v : T) : T :=
  match d.mutator with
  | some m => m v
  | none => v

/-- The validator step of `SetV` (`none` = nil validator or nil error). -/
def DynValue.applyValidator {T N : Type} (d : DynValue T N) (v : T) : Option String :=
  match d.validator with
  | some vd => vd v
  | none => none

/-- The input mutator step of `Set`. -/
def DynValue.applyInpMutator {T N : Type} (d : DynValue T N) (s : String) : String :=
  match d.inpMutator with
  | some m => m s
  | none => s

/-- Everything one call to `Set`/`SetV` does: the cell afterwards, the
returned error, whether the `.(T)` assertion on the old value paniced, and
the notifier invocations with their `(old, new)` arguments. -/
structure SetOut (T : Type) (N : Type) where
  cell : DynValue T N
  err : Option String
  panicked : Bool
  syncNotified : List (N × T × T)
  asyncNotified : List (N × T × T)

/-- The tail of `SetV` after validation: swap, then notify with the old
and new values, synchronously or in a new goroutine. -/
def DynValue.swapNotify {T N : Type} (d : DynValue T N) (val : T) : SetOut T N :=
  match d.av with
  | none => ⟨{ d with av := some val }, none, true, [], []⟩
  | some oldVal =>
    let d2 := { d with av := some val }
    match d.notifier with
    | none => ⟨d2, none, false, [], []⟩
    | some n =>
      if d.syncNotifier then ⟨d2, none, false, [(n, oldVal, val)], []⟩
      else ⟨d2, none, false, [], [(n, oldVal, val)]⟩

/-- `SetV`: value mutator, then validator (failure returns the error with
nothing swapped and nobody notified), then swap-and-notify. -/
def DynValue.SetV {T N : Type} (d : DynValue T N) (v0 : T) : SetOut T N :=
  let val := d.applyMutator v0
  match d.applyValidator val with
  | some e => ⟨d, some e, false, [], []⟩
  | none => d.swapNotify val

/-- `Set`: input mutator, then the parser for T (failure returns the error
with nothing swapped and nobody notified), then `SetV`. -/
def DynValue.Set {T N : Type} (parseT : String → Except String T)
    (d : DynValue T N) (rawInput : String) : SetOut T N :=
  match parseT (d.applyInpMutator rawInput) with
  | .error e => ⟨d, some e, false, [], []⟩
  | .ok val => d.SetV val

/-- `WithValidator`. -/
def DynValue.WithValidator {T N : Type} (d : DynValue T N)
    (validator : T → Option String) : DynValue T N :=
  { d with validator := some validator }

/-- `WithNotifier`: assigns the notifier slot and nothing else. -/
def DynValue.WithNotifier {T N : Type} (d : DynValue T N) (notifier : N) :
    DynValue T N :=
  { d with notifier := some notifier }

/-- `WithSyncNotifier`: assigns the notifier and sets the synchronous
flag. -/
def DynValue.WithSyncNotifier {T N : Type} (d : DynValue T N) (notifier : N) :
    DynValue T N :=
  { d with notifier := some notifier, syncNotifier := true }

/-- `WithValueMutator`. -/
def DynValue.WithValueMutator {T N : Type} (d : DynValue T N) (mutator : T → T) :
    DynValue T N :=
  { d with mutator := some mutator }

/-- `WithInputMutator`. -/
def DynValue.WithInputMutator {T N : Type} (d : DynValue T N)
    (mutator : String → String) : DynValue T N :=
  { d with inpMutator := some mutator }

/-- `DynValue.String()`: format the value read by `Get` (`none` only if
`Get` would fault). -/
def DynValue.String {T N : Type} (formatT : T → String) (zero : T)
    (d : DynValue T N) : Option String :=
  (d.Get zero).map formatT

/-! ## Helper lemmas -/

/-- A string with no comma: its own single split field. -/
def noComma (s : String) : Prop := ',' ∉ s.data

instance (s : String) : Decidable (noComma s) :=
  inferInstanceAs (Decidable (_ ∉ _))

theorem splitCommaL_nocomma (l : List Char) (h : ',' ∉ l) : splitCommaL l = [l] := by
  induction l with
  | nil => rfl
  | cons c cs ih =>
    have hc : c ≠ ',' := fun hc => h (by simp [hc])
    have ih2 := ih (fun hm => h (by simp [hm]))
    simp only [splitCommaL, if_neg hc, ih2]
    rfl

theorem splitCommaL_append_nocomma (l t : List Char) (h : ',' ∉ l) :
    splitCommaL (l ++ t) = (l ++ (splitCommaL t).head!) :: (splitCommaL t).tail! := by
  induction l with
  | nil =>
    rcases ht : splitCommaL t with _ | ⟨hd, tl⟩
    · exact absurd ht (splitCommaL_ne_nil t)
    · simp [ht]
  | cons c cs ih =>
    have hc : c ≠ ',' := fun hc => h (by simp [hc])
    have ih2 := ih (fun hm => h (by simp [hm]))
    simp only [List.cons_append, splitCommaL, if_neg hc, ih2]
    simp [ih2]

theorem joinCommaL_cons_cons (l : List Char) (l2 : List Char) (rest : List (List Char)) :
    joinCommaL (l :: l2 :: rest) = l ++ ',' :: joinCommaL (l2 :: rest) := by
  simp [joinCommaL]

theorem splitCommaL_joinCommaL : ∀ (ls : List (List Char)), ls ≠ [] →
    (∀ l ∈ ls, ',' ∉ l) → splitCommaL (joinCommaL ls) = ls
  | [], hne, _ => absurd rfl hne
  | [l], _, hnc => by
    have h : ',' ∉ l := hnc l (by simp)
    simp only [joinCommaL, List.map_nil, List.flatten_nil, List.append_nil]
    exact splitCommaL_nocomma l h
  | l :: l2 :: rest, _, hnc => by
    have h : ',' ∉ l := hnc l (by simp)
    have ih := splitCommaL_joinCommaL (l2 :: rest) (by simp)
      (fun x hx => hnc x (List.mem_cons_of_mem _ hx))
    rw [joinCommaL_cons_cons, splitCommaL_append_nocomma l _ h]
    have hsplit : splitCommaL (',' :: joinCommaL (l2 :: rest)) =
        [] :: splitCommaL (joinCommaL (l2 :: rest)) := by
      simp [splitCommaL]
    rw [hsplit, ih]
    simp

/-- `Join(Split(s)) = s` at the string level. -/
theorem joinComma_splitComma (s : String) : joinComma (splitComma s) = s := by
  simp only [joinComma, splitComma, List.map_map]
  have hmap : (String.data ∘ fun l : List Char => (⟨l⟩ : String)) = id :=
    funext fun l => rfl
  rw [hmap, List.map_id, joinCommaL_splitCommaL]

/-- `Split(Join(ls)) = ls` for a nonempty list of comma-free fields. -/
theorem splitComma_joinComma (ls : List String) (hne : ls ≠ [])
    (hnc : ∀ x ∈ ls, noComma x) : splitComma (joinComma ls) = ls := by
  simp only [splitComma, joinComma]
  rw [splitCommaL_joinCommaL (ls.map String.data)
    (by simpa using hne)
    (by intro l hl
        obtain ⟨x, hx, rfl⟩ := List.mem_map.mp hl
        exact hnc x hx)]
  rw [List.map_map]
  have hmap : ((fun l : List Char => (⟨l⟩ : String)) ∘ String.data) = id := by
    funext x; cases x; rfl
  rw [hmap, List.map_id]

theorem dropWhile_of_all_false (p : Char → Bool) :
    ∀ (l : List Char), (∀ c ∈ l, p c = false) → l.dropWhile p = l
  | [], _ => rfl
  | c :: cs, h => by
    have hc : p c = false := h c (by simp)
    simp [List.dropWhile_cons, hc]

theorem trimSpaceL_id (l : List Char) (h : ∀ c ∈ l, goIsSpace c = false) :
    trimSpaceL l = l := by
  unfold trimSpaceL
  rw [dropWhile_of_all_false _ l h]
  rw [dropWhile_of_all_false _ l.reverse (fun c hc => h c (by simpa using hc))]
  exact l.reverse_reverse

theorem digitChar_not_space (d : Nat) (hd : d < 10) : goIsSpace (digitChar d) = false := by
  interval_cases d <;> decide

theorem natDecChars_not_space (n : Nat) : ∀ c ∈ natDecChars n, goIsSpace c = false := by
  by_cases hn : n = 0
  · subst hn; intro c hc
    simp [natDecChars] at hc
    subst hc; decide
  · intro c hc
    simp only [natDecChars, if_neg hn] at hc
    obtain ⟨d, hd, rfl⟩ := List.mem_map.mp hc
    have : d < 10 := (digitsLE_spec n n le_rfl).2 d (by simpa using hd)
    exact digitChar_not_space d this

/-- The decimal form of an integer never needs trimming. -/
theorem trimSpace_formatInt (i : Int) : trimSpace (formatInt i) = formatInt i := by
  have hall : ∀ c ∈ (formatInt i).data, goIsSpace c = false := by
    by_cases hn : i < 0
    · intro c hc
      rw [show (formatInt i).data = '-' :: natDecChars i.natAbs by simp [formatInt, hn]] at hc
      rcases List.mem_cons.mp hc with rfl | hc
      · decide
      · exact natDecChars_not_space _ c hc
    · intro c hc
      rw [show (formatInt i).data = natDecChars i.toNat by simp [formatInt, hn]] at hc
      exact natDecChars_not_space _ c hc
  show (⟨trimSpaceL (formatInt i).data⟩ : String) = formatInt i
  rw [trimSpaceL_id _ hall]

/-! ### Duration round-trip

`durFormat` decomposes a value greedily over `unitTags` and `durParse` sums
the groups back; the lemmas below show the telescoping decomposition is
inverted exactly, for every value. -/

/-- The characters the formatter fold emits, as a plain recursion. -/
def groupChars : List (Nat × List Char) → Nat → List Char
  | [], _ => []
  | (u, tag) :: L, rem =>
    if rem / u = 0 then groupChars L rem
    else natDecChars (rem / u) ++ tag ++ groupChars L (rem % u)

/-- The remainder the formatter fold leaves. -/
def remAfter : List (Nat × List Char) → Nat → Nat
  | [], rem => rem
  | (u, _) :: L, rem => if rem / u = 0 then remAfter L rem else remAfter L (rem % u)

/-- How many groups the formatter emits. -/
def emitCount : List (Nat × List Char) → Nat → Nat
  | [], _ => 0
  | (u, _) :: L, rem => if rem / u = 0 then emitCount L rem else emitCount L (rem % u) + 1

/-- The head of `l` is absent or not a decimal digit. -/
def headNotDigit (l : List Char) : Prop :=
  l = [] ∨ ∃ c t2, l = c :: t2 ∧ (c.toNat < 48 ∨ 57 < c.toNat)

/-- The head of `l` is absent or some digit character. -/
def headDigitOrNil (l : List Char) : Prop :=
  l = [] ∨ ∃ d t, d < 10 ∧ l = digitChar d :: t

/-- What the round-trip needs from a unit tag: nonempty, no whitespace, a
non-digit head, and recognized by `durUnit` whenever what follows starts
with a digit or ends the string. -/
def tagOK (u : Nat) (tag : List Char) : Prop :=
  tag ≠ [] ∧ (∀ c ∈ tag, goIsSpace c = false) ∧
  (∃ c t2, tag = c :: t2 ∧ (c.toNat < 48 ∨ 57 < c.toNat)) ∧
  (∀ rest, headDigitOrNil rest → durUnit (tag ++ rest) = some (u, rest))

theorem foldl_durFormatStep : ∀ (L : List (Nat × List Char)) (cs : List Char) (rem : Nat),
    L.foldl durFormatStep (cs, rem) = (cs ++ groupChars L rem, remAfter L rem)
  | [], cs, rem => by simp [groupChars, remAfter]
  | (u, tag) :: L, cs, rem => by
    by_cases hq : rem / u = 0
    · simp only [List.foldl_cons, durFormatStep, hq, if_pos rfl, groupChars, remAfter,
        if_pos hq]
      exact foldl_durFormatStep L cs rem
    · simp only [List.foldl_cons, durFormatStep, if_neg hq, groupChars, remAfter]
      rw [foldl_durFormatStep L (cs ++ natDecChars (rem / u) ++ tag) (rem % u)]
      simp

theorem digitChar_toNat (d : Nat) (hd : d < 10) : (digitChar d).toNat = 48 + d := by
  interval_cases d <;> decide

theorem digitsAcc_run : ∀ (ds : List Nat) (acc : Nat) (t : List Char),
    (∀ d ∈ ds, d < 10) → headNotDigit t →
    digitsAcc (ds.map digitChar ++ t) acc = (List.foldl decStep acc ds, t)
  | [], acc, t, _, ht => by
    rcases ht with rfl | ⟨c, t2, rfl, hc⟩
    · rfl
    · simp only [List.map_nil, List.nil_append, digitsAcc, List.foldl_nil]
      rw [if_neg (by omega)]
  | d :: ds, acc, t, hds, ht => by
    have hd : d < 10 := hds d (by simp)
    have htn := digitChar_toNat d hd
    simp only [List.map_cons, List.cons_append, digitsAcc, List.append_eq]
    rw [if_pos (by omega)]
    have hsub : (digitChar d).toNat - 48 = d := by omega
    rw [hsub]
    have := digitsAcc_run ds (acc * 10 + d) t (fun x hx => hds x (by simp [hx])) ht
    rw [this]
    simp [decStep]

theorem natDecChars_eq_map (q : Nat) :
    ∃ ds, natDecChars q = ds.map digitChar ∧ (∀ d ∈ ds, d < 10) ∧
      List.foldl decStep 0 ds = q ∧ ds ≠ [] := by
  by_cases hq : q = 0
  · exact ⟨[0], by simp [hq, natDecChars]; rfl, by simp, by simp [hq, decStep], by simp⟩
  · refine ⟨(digitsLE q q).reverse, by simp [natDecChars, hq], ?_, ?_, ?_⟩
    · intro d hd
      exact (digitsLE_spec q q le_rfl).2 d (by simpa using hd)
    · rw [foldl_decStep_reverse, (digitsLE_spec q q le_rfl).1]
    · simpa using digitsLE_ne_nil q q hq le_rfl

theorem durParseGroups_group (fuel q u acc : Nat) (tag rest : List Char)
    (htag : durUnit (tag ++ rest) = some (u, rest))
    (hnd : headNotDigit (tag ++ rest)) :
    durParseGroups (fuel + 1) (natDecChars q ++ (tag ++ rest)) acc =
      durParseGroups fuel rest (acc + q * u) := by
  obtain ⟨ds, hmap, hlt, hfold, hne⟩ := natDecChars_eq_map q
  rcases ds with _ | ⟨d0, ds2⟩
  · exact absurd rfl hne
  · have hd0 : d0 < 10 := hlt d0 (by simp)
    have htn := digitChar_toNat d0 hd0
    rw [hmap]
    simp only [List.map_cons, List.cons_append, durParseGroups, List.append_eq]
    rw [if_pos (by omega)]
    have hsub : (digitChar d0).toNat - 48 = d0 := by omega
    rw [hsub]
    rw [digitsAcc_run ds2 d0 (tag ++ rest) (fun x hx => hlt x (by simp [hx])) hnd]
    simp only [htag]
    have hfq : List.foldl decStep d0 ds2 = q := by
      have : decStep 0 d0 = d0 := by simp [decStep]
      rw [← this]
      simpa using hfold
    rw [hfq]

theorem groupChars_headDigitOrNil : ∀ (L : List (Nat × List Char)) (rem : Nat),
    headDigitOrNil (groupChars L rem)
  | [], _ => Or.inl rfl
  | (u, tag) :: L, rem => by
    by_cases hq : rem / u = 0
    · simp only [groupChars, if_pos hq]
      exact groupChars_headDigitOrNil L rem
    · simp only [groupChars, if_neg hq]
      obtain ⟨ds, hmap, hlt, _, hne⟩ := natDecChars_eq_map (rem / u)
      rcases ds with _ | ⟨d0, ds2⟩
      · exact absurd rfl hne
      · right
        exact ⟨d0, ds2.map digitChar ++ tag ++ groupChars L (rem % u),
          hlt d0 (by simp), by simp [hmap]⟩

theorem groupChars_nil_remAfter : ∀ (L : List (Nat × List Char)) (rem : Nat),
    groupChars L rem = [] → remAfter L rem = rem
  | [], _, _ => rfl
  | (u, tag) :: L, rem, h => by
    by_cases hq : rem / u = 0
    · simp only [groupChars, if_pos hq] at h
      simp only [remAfter, if_pos hq]
      exact groupChars_nil_remAfter L rem h
    · simp only [groupChars, if_neg hq] at h
      obtain ⟨ds, hmap, _, _, hne⟩ := natDecChars_eq_map (rem / u)
      rcases ds with _ | ⟨d0, ds2⟩
      · exact absurd rfl hne
      · rw [hmap] at h
        simp at h

theorem emitCount_le_length : ∀ (L : List (Nat × List Char)) (rem : Nat),
    emitCount L rem ≤ (groupChars L rem).length
  | [], _ => le_rfl
  | (u, tag) :: L, rem => by
    by_cases hq : rem / u = 0
    · simp only [emitCount, groupChars, if_pos hq]
      exact emitCount_le_length L rem
    · simp only [emitCount, groupChars, if_neg hq, List.length_append]
      have h1 : 1 ≤ (natDecChars (rem / u)).length := by
        obtain ⟨ds, hmap, _, _, hne⟩ := natDecChars_eq_map (rem / u)
        rw [hmap]
        rcases ds with _ | ⟨d0, ds2⟩
        · exact absurd rfl hne
        · simp
      have h2 := emitCount_le_length L (rem % u)
      omega

theorem groupChars_not_space : ∀ (L : List (Nat × List Char)) (rem : Nat),
    (∀ p ∈ L, tagOK p.1 p.2) → ∀ c ∈ groupChars L rem, goIsSpace c = false
  | [], _, _, c, hc => by cases hc
  | (u, tag) :: L, rem, hL, c, hc => by
    have htag : tagOK u tag := hL (u, tag) (by simp)
    have hL2 : ∀ p ∈ L, tagOK p.1 p.2 := fun p hp => hL p (by simp [hp])
    by_cases hq : rem / u = 0
    · simp only [groupChars, if_pos hq] at hc
      exact groupChars_not_space L rem hL2 c hc
    · simp only [groupChars, if_neg hq, List.append_assoc, List.mem_append] at hc
      rcases hc with hc | hc | hc
      · exact natDecChars_not_space _ c hc
      · exact htag.2.1 c hc
      · exact groupChars_not_space L (rem % u) hL2 c hc

theorem durParseGroups_groupChars : ∀ (L : List (Nat × List Char)) (rem acc fuel : Nat),
    (∀ p ∈ L, tagOK p.1 p.2) → remAfter L rem = 0 → emitCount L rem ≤ fuel →
    durParseGroups fuel (groupChars L rem) acc = .ok (acc + rem)
  | [], rem, acc, fuel, _, h0, _ => by
    have : rem = 0 := h0
    subst this
    cases fuel <;> rfl
  | (u, tag) :: L, rem, acc, fuel, hL, h0, hfuel => by
    have htag : tagOK u tag := hL (u, tag) (by simp)
    have hL2 : ∀ p ∈ L, tagOK p.1 p.2 := fun p hp => hL p (by simp [hp])
    by_cases hq : rem / u = 0
    · simp only [groupChars, if_pos hq]
      simp only [remAfter, if_pos hq] at h0
      simp only [emitCount, if_pos hq] at hfuel
      exact durParseGroups_groupChars L rem acc fuel hL2 h0 hfuel
    · simp only [groupChars, if_neg hq]
      simp only [remAfter, if_neg hq] at h0
      simp only [emitCount, if_neg hq] at hfuel
      rcases fuel with _ | f
      · omega
      · obtain ⟨ch, ct, htag3, hch⟩ := htag.2.2.1
        have hnd : headNotDigit (tag ++ groupChars L (rem % u)) := by
          right
          exact ⟨ch, ct ++ groupChars L (rem % u), by simp [htag3], hch⟩
        have hdu : durUnit (tag ++ groupChars L (rem % u)) =
            some (u, groupChars L (rem % u)) :=
          htag.2.2.2 _ (groupChars_headDigitOrNil L (rem % u))
        rw [show natDecChars (rem / u) ++ tag ++ groupChars L (rem % u) =
          natDecChars (rem / u) ++ (tag ++ groupChars L (rem % u)) by simp]
        rw [durParseGroups_group f (rem / u) u acc tag (groupChars L (rem % u)) hdu hnd]
        rw [durParseGroups_groupChars L (rem % u) (acc + rem / u * u) f hL2 h0 (by omega)]
        have hdm : u * (rem / u) + rem % u = rem := Nat.div_add_mod rem u
        congr 1
        rw [Nat.mul_comm, Nat.add_assoc, hdm]

theorem unitTags_tagOK : ∀ p ∈ unitTags, tagOK p.1 p.2 := by
  intro p hp
  fin_cases hp
  · exact ⟨by decide, by decide, ⟨'w', [], rfl, by decide⟩, fun rest _ => rfl⟩
  · exact ⟨by decide, by decide, ⟨'d', [], rfl, by decide⟩, fun rest _ => rfl⟩
  · exact ⟨by decide, by decide, ⟨'h', [], rfl, by decide⟩, fun rest _ => rfl⟩
  · refine ⟨by decide, by decide, ⟨'m', [], rfl, by decide⟩, fun rest hrest => ?_⟩
    rcases hrest with rfl | ⟨d, t, hd, rfl⟩
    · rfl
    · have hne : digitChar d ≠ 's' := by
        have := digitChar_toNat d hd
        intro hc
        rw [hc] at this
        simp at this
        omega
      simp [durUnit, hne]
  · exact ⟨by decide, by decide, ⟨'s', [], rfl, by decide⟩, fun rest _ => rfl⟩
  · exact ⟨by decide, by decide, ⟨'m', ['s'], rfl, by decide⟩, fun rest _ => rfl⟩
  · exact ⟨by decide, by decide, ⟨'u', ['s'], rfl, by decide⟩, fun rest _ => rfl⟩
  · exact ⟨by decide, by decide, ⟨'n', ['s'], rfl, by decide⟩, fun rest _ => rfl⟩

theorem remAfter_append : ∀ (L1 L2 : List (Nat × List Char)) (rem : Nat),
    remAfter (L1 ++ L2) rem = remAfter L2 (remAfter L1 rem)
  | [], _, _ => rfl
  | (u, t) :: L1, L2, rem => by
    simp only [List.cons_append, remAfter]
    split <;> exact remAfter_append L1 L2 _

theorem remAfter_one (t : List Char) (rem : Nat) : remAfter [(1, t)] rem = 0 := by
  by_cases h : rem = 0
  · simp [remAfter, h]
  · simp [remAfter, h, Nat.mod_one]

theorem remAfter_unitTags (rem : Nat) : remAfter unitTags rem = 0 := by
  have hsplit : unitTags = [(nsWeek, ['w']), (nsDay, ['d']), (nsHour, ['h']),
      (nsMin, ['m']), (nsSec, ['s']), (nsMs, ['m', 's']), (nsUs, ['u', 's'])]
      ++ [(nsNs, ['n', 's'])] := rfl
  rw [hsplit, remAfter_append]
  exact remAfter_one ['n', 's'] _

/-- Formatting any duration and parsing it back recovers the value. -/
theorem durParse_durFormat (n : Nat) : durParse (durFormat n) = .ok n := by
  by_cases hn : n = 0
  · subst hn; rfl
  · have hform : durFormat n = ⟨groupChars unitTags n⟩ := by
      simp only [durFormat, if_neg hn, foldl_durFormatStep unitTags [] n, List.nil_append]
    have hr0 : remAfter unitTags n = 0 := remAfter_unitTags n
    have hns : ∀ c ∈ groupChars unitTags n, goIsSpace c = false :=
      groupChars_not_space unitTags n unitTags_tagOK
    have hne : groupChars unitTags n ≠ [] := by
      intro hc
      exact hn ((groupChars_nil_remAfter unitTags n hc).symm.trans hr0)
    rw [hform]
    unfold durParse
    rw [show (⟨groupChars unitTags n⟩ : String).data = groupChars unitTags n from rfl]
    rw [trimSpaceL_id _ hns]
    rcases hgc : groupChars unitTags n with _ | ⟨c0, cs0⟩
    · exact absurd hgc hne
    · rw [← hgc]
      have hlen : emitCount unitTags n ≤ (groupChars unitTags n).length + 1 := by
        have := emitCount_le_length unitTags n
        omega
      have := durParseGroups_groupChars unitTags n 0 ((groupChars unitTags n).length + 1)
        unitTags_tagOK hr0 hlen
      rw [hgc] at this ⊢
      simpa using this

/-! ### Set helper lemmas -/

theorem setFromSlice_mem (l : List String) (x : String) :
    x ∈ setFromSlice l ↔ x ∈ l := List.mem_dedup

theorem setFromSlice_nodup (l : List String) : (setFromSlice l).Nodup :=
  List.nodup_dedup l

theorem insertionSort_mem (keys : List String) (x : String) :
    x ∈ List.insertionSort strLeRel keys ↔ x ∈ keys :=
  (List.perm_insertionSort strLeRel keys).mem_iff

theorem insertionSort_sorted (keys : List String) :
    List.Sorted strLeRel (List.insertionSort strLeRel keys) :=
  List.sorted_insertionSort strLeRel keys

theorem insertionSort_nodup (keys : List String) (h : keys.Nodup) :
    (List.insertionSort strLeRel keys).Nodup :=
  (List.perm_insertionSort strLeRel keys).nodup_iff.mpr h

theorem insertionSort_idem (keys : List String) :
    List.insertionSort strLeRel (List.insertionSort strLeRel keys) =
      List.insertionSort strLeRel keys :=
  (insertionSort_sorted keys).insertionSort_eq

theorem insertionSort_ne_nil (keys : List String) (h : keys ≠ []) :
    List.insertionSort strLeRel keys ≠ [] := by
  intro hc
  have hp := (List.perm_insertionSort strLeRel keys).symm
  rw [hc] at hp
  exact h hp.eq_nil

/-- Round-trip of the set arm: parsing the canonical (sorted) form of a
duplicate-free, comma-free, nonempty key list yields the sorted key list —
the same set. -/
theorem setParse_setToString (keys : List String) (hnd : keys.Nodup)
    (hne : keys ≠ []) (hnc : ∀ x ∈ keys, noComma x) :
    setFromSlice (splitComma (setToString keys)) = List.insertionSort strLeRel keys := by
  unfold setToString setFromSlice
  rw [splitComma_joinComma _ (insertionSort_ne_nil keys hne)
    (fun x hx => hnc x ((insertionSort_mem keys x).mp hx))]
  exact List.dedup_eq_self.mpr (insertionSort_nodup keys hnd)

/-! ### Cell operation specifications -/

theorem set_parse_fail {T N : Type} (d : DynValue T N)
    (parseT : String → Except String T) (raw : String) (e : String)
    (h : parseT (d.applyInpMutator raw) = .error e) :
    d.Set parseT raw = ⟨d, some e, false, [], []⟩ := by
  simp [DynValue.Set, h]

theorem set_parse_ok {T N : Type} (d : DynValue T N)
    (parseT : String → Except String T) (raw : String) (val : T)
    (h : parseT (d.applyInpMutator raw) = .ok val) :
    d.Set parseT raw = d.SetV val := by
  simp [DynValue.Set, h]

theorem setV_validator_fail {T N : Type} (d : DynValue T N) (v0 : T) (e : String)
    (h : d.applyValidator (d.applyMutator v0) = some e) :
    d.SetV v0 = ⟨d, some e, false, [], []⟩ := by
  simp [DynValue.SetV, h]

theorem setV_success_sync {T N : Type} (d : DynValue T N) (nf : N) (v0 cur : T)
    (hn : d.notifier = some nf) (hs : d.syncNotifier = true) (hav : d.av = some cur)
    (hok : d.applyValidator (d.applyMutator v0) = none) :
    d.SetV v0 = ⟨{ d with av := some (d.applyMutator v0) }, none, false,
      [(nf, cur, d.applyMutator v0)], []⟩ := by
  simp [DynValue.SetV, hok, DynValue.swapNotify, hav, hn, hs]

/-! ## Claim theorems -/

/-- C1: for every dynamic value cell, if `Set` fails at the
input-mutator/parse stage, or `SetV` fails at the validator (run after the
optional value mutator), the error is returned to the caller, the cell —
hence the value observable via `Get` — is exactly as before the call, and
no notifier is invoked, synchronously or asynchronously. -/
theorem set_rejection_is_atomic {T N : Type} (d : DynValue T N)
    (parseT : String → Except String T) (raw : String) (v0 zero : T)
    (e1 e2 : String) :
    (parseT (d.applyInpMutator raw) = .error e1 →
      d.Set parseT raw = ⟨d, some e1, false, [], []⟩ ∧
      (d.Set parseT raw).cell.Get zero = d.Get zero) ∧
    (d.applyValidator (d.applyMutator v0) = some e2 →
      d.SetV v0 = ⟨d, some e2, false, [], []⟩ ∧
      (d.SetV v0).cell.Get zero = d.Get zero) := by
  constructor
  · intro h
    have h1 := set_parse_fail d parseT raw e1 h
    exact ⟨h1, by rw [h1]⟩
  · intro h
    have h1 := setV_validator_fail d v0 e2 h
    exact ⟨h1, by rw [h1]⟩

/-- Witness for C1: an int64 cell rejecting a non-numeric string at parse,
and a validated cell rejecting an over-limit value, both left unchanged
with no notification. -/
theorem set_rejection_is_atomic_witness :
    ((New 5 "v" : DynValue Int Unit).Set (fun s => goParseInt64 (trimSpace s)) "abc")
        = ⟨(New 5 "v" : DynValue Int Unit), some "invalid syntax", false, [], []⟩ ∧
    (((New 5 "v" : DynValue Int Unit).WithValidator
        (fun v => if 3 < v then some "too big" else none)).SetV 10)
        = ⟨(New 5 "v" : DynValue Int Unit).WithValidator
            (fun v => if 3 < v then some "too big" else none),
          some "too big", false, [], []⟩ :=
  ⟨((set_rejection_is_atomic (New 5 "v" : DynValue Int Unit)
      (fun s => goParseInt64 (trimSpace s)) "abc" 0 0 "invalid syntax" "e").1 rfl).1,
   ((set_rejection_is_atomic
      ((New 5 "v" : DynValue Int Unit).WithValidator
        (fun v => if 3 < v then some "too big" else none))
      (fun s => goParseInt64 (trimSpace s)) "" 10 0 "e" "too big").2 rfl).1⟩

/-- C2 (spec-modelled): the duration parser accepts the extended units `w`
(7 days) and `d` (24 hours) composed with ordinary units — `"1d3h"` is 27
hours, `"3w2d4h"` is 556 hours — and formatting the latter value back
yields `"3w2d4h"`; through a cell, setting `"1d3h\n"` (trimmed) stores 27
hours and displays as `"1d3h"`. -/
theorem duration_extended_units :
    durParse "1d3h" = .ok (27 * nsHour) ∧
    durParse "3w2d4h" = .ok (556 * nsHour) ∧
    durFormat (556 * nsHour) = "3w2d4h" ∧
    ((New 0 "dur" : DynValue Nat Unit).Set durParse "1d3h\n").cell.Get 0
      = some (27 * nsHour) ∧
    ((New 0 "dur" : DynValue Nat Unit).Set durParse "1d3h\n").cell.String durFormat 0
      = some "1d3h" :=
  ⟨rfl, rfl, rfl, rfl, rfl⟩

/-- The byte-sequence parser as the spec describes it: strip every ASCII
whitespace character anywhere in the input, then base64-decode the
remainder (refinement comparison against the code's actual parser). -/
def specStripWsBytes (s : String) : Except String (List Nat) :=
  b64DecodeQuads (s.data.filter (fun c => !goIsSpace c))

/-- Counterexample to C3 at `"QU JD"`: under the spec's description the
embedded space is stripped and the input decodes to `ABC`; the code feeds
the input to the base64 decoder directly, which only skips `\r`/`\n`, so
the space makes it fail. -/
theorem byteParse_strip_all_ws_refuted :
    specStripWsBytes "QU JD" = .ok [65, 66, 67] ∧
    parse .tBytes "QU JD" = .error "illegal base64 data" :=
  ⟨rfl, rfl⟩

/-- C3 as amended: the byte-sequence parser base64-decodes the input
directly; the decoder ignores embedded `\r` and `\n` (so newline-framed
payloads parse), but other interior whitespace such as a space is not
stripped and is rejected; malformed base64 is rejected. -/
theorem byteParse_newline_tolerant :
    (∀ l1 l2 : List Char,
      b64DecodeString ⟨l1 ++ '\n' :: l2⟩ = b64DecodeString ⟨l1 ++ l2⟩ ∧
      b64DecodeString ⟨l1 ++ '\r' :: l2⟩ = b64DecodeString ⟨l1 ++ l2⟩) ∧
    parse .tBytes "QU\nJD" = .ok (.vBytes [65, 66, 67]) ∧
    (parse .tBytes "QU JD").isOk = false ∧
    (parse .tBytes "foo bar").isOk = false ∧
    parse .tBytes "QUJD" = .ok (.vBytes [65, 66, 67]) := by
  refine ⟨fun l1 l2 => ⟨?_, ?_⟩, rfl, rfl, rfl, rfl⟩ <;>
    simp [b64DecodeString, dropNewlines, List.filter_append]

/-- C5: the set-of-string parser splits on commas and deduplicates; the
canonical form sorts the keys and joins them with commas — a cell holding
`{"z","a","c","b"}` displays as `"a,b,c,z"`, and after `Set("e,b,a")` it
displays as `"a,b,e"`. -/
theorem set_canonicalization :
    (∀ s : String, parse .tSet s = .ok (.vSet (setFromSlice (CommaStringToSlice s)))) ∧
    (∀ l : List String, (setFromSlice l).Nodup ∧ (∀ x, x ∈ setFromSlice l ↔ x ∈ l)) ∧
    (∀ keys : List String, List.Sorted strLeRel (List.insertionSort strLeRel keys)) ∧
    (New (setFromSlice ["z", "a", "c", "b"]) "usage" : DynValue (List String) Unit).String
        setToString [] = some "a,b,c,z" ∧
    ((New (setFromSlice ["z", "a", "c", "b"]) "usage" : DynValue (List String) Unit).Set
        (fun s => .ok (setFromSlice (CommaStringToSlice s))) "e,b,a").cell.String
        setToString [] = some "a,b,e" := by
  refine ⟨fun s => rfl, fun l => ⟨setFromSlice_nodup l, setFromSlice_mem l⟩,
    insertionSort_sorted, rfl, rfl⟩

/-- C6: the sequence-of-string parser splits on `","` with no escape
processing — joining the fields back always restores the input, so order
and duplicates are preserved; the empty input yields `[""]`; the canonical
form joins the elements by commas in insertion order. -/
theorem slice_split_semantics :
    (∀ s : String, joinComma (CommaStringToSlice s) = s) ∧
    CommaStringToSlice "" = [""] ∧
    CommaStringToSlice "a,b,a" = ["a", "b", "a"] ∧
    (∀ (l : List String) (u : String),
      (New l u : DynValue (List String) Unit).String joinComma [] = some (joinComma l)) :=
  ⟨joinComma_splitComma, rfl, rfl, fun l u => rfl⟩

/-- C7: with a synchronous notifier attached, a successful `SetV` (and
`Set`, which reduces to it once parsing succeeds) performs the swap and
invokes the notifier before returning, on the caller's side, with `(old,
new)` exactly the value stored immediately before the swap and the newly
stored value; nothing is dispatched asynchronously. -/
theorem sync_notifier_contract {T N : Type} (d : DynValue T N) (nf : N)
    (v0 cur : T) (parseT : String → Except String T) (raw : String) (val : T) :
    (d.notifier = some nf → d.syncNotifier = true → d.av = some cur →
      d.applyValidator (d.applyMutator v0) = none →
      d.SetV v0 = ⟨{ d with av := some (d.applyMutator v0) }, none, false,
        [(nf, cur, d.applyMutator v0)], []⟩) ∧
    (parseT (d.applyInpMutator raw) = .ok val → d.Set parseT raw = d.SetV val) :=
  ⟨fun h1 h2 h3 h4 => setV_success_sync d nf v0 cur h1 h2 h3 h4,
   fun h => set_parse_ok d parseT raw val h⟩

/-- Witness for C7: a string cell with a synchronous notifier; setting
`"b"` over `"a"` returns no error and reports exactly one synchronous
`("a", "b")` notification. -/
theorem sync_notifier_contract_witness :
    ((New "a" "u" : DynValue String Unit).WithSyncNotifier ()).SetV "b"
      = ⟨{ (New "a" "u" : DynValue String Unit).WithSyncNotifier () with av := some "b" },
        none, false, [((), "a", "b")], []⟩ ∧
    ((New "a" "u" : DynValue String Unit).WithSyncNotifier ()).Set (fun s => .ok s) "b"
      = ((New "a" "u" : DynValue String Unit).WithSyncNotifier ()).SetV "b" :=
  ⟨(sync_notifier_contract ((New "a" "u" : DynValue String Unit).WithSyncNotifier ())
      () "b" "a" (fun s => .ok s) "b" "b").1 rfl rfl rfl rfl,
   (sync_notifier_contract ((New "a" "u" : DynValue String Unit).WithSyncNotifier ())
      () "b" "a" (fun s => .ok s) "b" "b").2 rfl⟩

/-- C8: `Get` on a cell that has not been initialized — in particular the
zero-value `DynValue`, whose ready flag is unset — returns the zero value
of T and does not fault. -/
theorem get_unready_returns_zero {T N : Type} (d : DynValue T N) (zero : T) :
    (({} : DynValue T N).Get zero = some zero) ∧
    (d.ready = false → d.Get zero = some zero) := by
  refine ⟨rfl, fun h => ?_⟩
  simp [DynValue.Get, h]

/-- Witness for C8 at `T = Int`: the zero-value cell yields the zero value
`0` rather than faulting. -/
theorem get_unready_returns_zero_witness :
    (({} : DynValue Int Unit).Get 0 = some 0) ∧
    (({} : DynValue Int Unit).Get 0 = some 0) :=
  ⟨(get_unready_returns_zero ({} : DynValue Int Unit) 0).1,
   (get_unready_returns_zero ({} : DynValue Int Unit) 0).2 rfl⟩

/-- C9: the default arm of `parse[T]`, reached for every type outside the
supported switch, returns an error naming the type regardless of the
input — matching `TestParse_BadType`, `unexpected type uint8`. -/
theorem parse_unsupported_named_error (name input : String) :
    parse (.tOther name) input = .error ("unexpected type " ++ name) ∧
    parse (.tOther "uint8") "23" = .error "unexpected type uint8" :=
  ⟨rfl, rfl⟩

/-- C10: `WithNotifier` assigns only the notifier slot — every other field,
including the syncNotifier mode flag, is untouched — so a notifier attached
via `WithNotifier` after `WithSyncNotifier` still fires synchronously
during `SetV`. -/
theorem withNotifier_keeps_sync_mode {T N : Type} (d : DynValue T N) (f g : N)
    (v0 cur : T) :
    ((d.WithNotifier g).syncNotifier = d.syncNotifier ∧
      (d.WithNotifier g).notifier = some g ∧
      (d.WithNotifier g).av = d.av ∧
      (d.WithNotifier g).validator = d.validator ∧
      (d.WithNotifier g).mutator = d.mutator ∧
      (d.WithNotifier g).inpMutator = d.inpMutator ∧
      (d.WithNotifier g).ready = d.ready) ∧
    ((d.WithSyncNotifier f).WithNotifier g).syncNotifier = true ∧
    (d.av = some cur → d.applyValidator (d.applyMutator v0) = none →
      ((d.WithSyncNotifier f).WithNotifier g).SetV v0 =
        ⟨{ (d.WithSyncNotifier f).WithNotifier g with av := some (d.applyMutator v0) },
          none, false, [(g, cur, d.applyMutator v0)], []⟩) :=
  ⟨⟨rfl, rfl, rfl, rfl, rfl, rfl, rfl⟩, rfl,
   fun hav hok => setV_success_sync _ g v0 cur rfl rfl hav hok⟩

/-- Witness for C10: after `WithSyncNotifier 0` then `WithNotifier 1`, a
successful `SetV` fires notifier `1` synchronously. -/
theorem withNotifier_keeps_sync_mode_witness :
    (((New "a" "u" : DynValue String Nat).WithSyncNotifier 0).WithNotifier 1).SetV "b"
      = ⟨{ ((New "a" "u" : DynValue String Nat).WithSyncNotifier 0).WithNotifier 1 with
            av := some "b" }, none, false, [(1, "a", "b")], []⟩ :=
  (withNotifier_keeps_sync_mode (New "a" "u" : DynValue String Nat) 0 1 "b" "a").2.2
    rfl rfl

end DFlag
